import Mathlib

/-!
Verification of the LocalTopSH knowledge-base pipeline (chunker, embedding
client, Qdrant wrapper, ingestion CLI, document locator) against its
natural-language specification.  Text is modelled as `List Char`; JavaScript
string primitives (`slice`, `lastIndexOf`, `trim`, `split`) are embedded with
their ECMAScript semantics restricted to the character sets the code uses.
Machine numbers are modelled as `Int`/`Nat`: the only fractional arithmetic in
the sources is the comparison `x > start + chunkSize / 2`, which is embedded
exactly as `2 * x > 2 * start + chunkSize` (multiplying the float comparison
by 2 is exact for the integer inputs involved).
-/

namespace KB

/-- Decidable equality for `Except` results. -/
instance {ε α : Type} [DecidableEq ε] [DecidableEq α] : DecidableEq (Except ε α) :=
  fun a b =>
    match a, b with
    | .ok x, .ok y =>
        if h : x = y then isTrue (by rw [h]) else isFalse (fun hc => h (by cases hc; rfl))
    | .error x, .error y =>
        if h : x = y then isTrue (by rw [h]) else isFalse (fun hc => h (by cases hc; rfl))
    | .ok _, .error _ => isFalse (fun hc => by cases hc)
    | .error _, .ok _ => isFalse (fun hc => by cases hc)

/-- Convert a Lean string literal to the `List Char` text model. -/
def str (s : String) : List Char := s.data

/-- The JavaScript whitespace class as used by `String.prototype.trim`,
restricted to the code points the repository's inputs exercise
(space, tab, LF, VT, FF, CR, NBSP, BOM). -/
def isJsWs (c : Char) : Bool :=
  c = ' ' || c = '\t' || c = '\n' || c = '\x0b' || c = '\x0c' || c = '\r' ||
  c = (Char.ofNat 160) || c = (Char.ofNat 0xFEFF)

/-- JS `String.prototype.trim`: drop leading and trailing whitespace. -/
def jsTrim (l : List Char) : List Char :=
  ((l.dropWhile isJsWs).reverse.dropWhile isJsWs).reverse

/-- `.replace(/\r\n/g, '\n')` — global, non-overlapping, left to right. -/
def replaceCRLF : List Char → List Char
  | [] => []
  | '\r' :: '\n' :: rest => '\n' :: replaceCRLF rest
  | c :: rest => c :: replaceCRLF rest

/-- Emit a pending run of `n` newlines, collapsing runs of 3 or more to 2:
models one match of `.replace(/\n{3,}/g, '\n\n')` (the regex is greedy, so
each maximal newline run is one match). -/
def emitNL (n : Nat) : List Char :=
  if 3 ≤ n then ['\n', '\n'] else List.replicate n '\n'

/-- Worker for `collapseNL`: `n` is the length of the newline run read so far. -/
def collapseGo (n : Nat) : List Char → List Char
  | [] => emitNL n
  | c :: rest =>
      if c = '\n' then collapseGo (n + 1) rest
      else emitNL n ++ c :: collapseGo 0 rest

/-- `.replace(/\n{3,}/g, '\n\n')`. -/
def collapseNL (l : List Char) : List Char := collapseGo 0 l

/-- Resolve one JS `slice` index: negative indexes count from the end,
and the result is clamped into `[0, length]`. -/
def rIdx (l : List Char) (x : Int) : Nat :=
  if x < 0 then ((l.length : Int) + x).toNat else min x.toNat l.length

/-- JS `String.prototype.slice(a, b)`. -/
def jsSlice (l : List Char) (a b : Int) : List Char :=
  (l.take (rIdx l b)).drop (rIdx l a)

/-- Does `pat` occur in `l` starting at position `i`? -/
def matchAt (l pat : List Char) (i : Nat) : Bool :=
  (l.drop i).take pat.length == pat

/-- Search downward from position `n` for the last occurrence of `pat`. -/
def lastIdxGo (l pat : List Char) : Nat → Int
  | 0 => if matchAt l pat 0 then 0 else -1
  | i + 1 => if matchAt l pat (i + 1) then ((i : Int) + 1) else lastIdxGo l pat i

/-- JS `String.prototype.lastIndexOf(pat, fromIndex)`: the largest position
`≤ max fromIndex 0` (clamped to the length) at which `pat` occurs, `-1` when
there is none.  A negative `fromIndex` is treated as `0`. -/
def jsLastIndexOf (l pat : List Char) (fromIndex : Int) : Int :=
  lastIdxGo l pat (if fromIndex < 0 then 0 else min fromIndex.toNat l.length)

/-- The paragraph-break pattern searched by the chunker. -/
def nlnl : List Char := ['\n', '\n']

/-- The sentence-end pattern searched by the chunker. -/
def dotSp : List Char := ['.', ' ']

/-- The cut point chosen for the window starting at `start`
(`splitIntoChunks`, parser.ts lines 111-126): tentative end is
`start + chunkSize`; if that is before the end of the text, prefer the last
paragraph break past the window midpoint, else the last sentence end past the
midpoint advanced by one, else keep the raw window end.  The float comparison
`x > start + chunkSize / 2` is embedded as `2 * x > 2 * start + chunkSize`. -/
def computeEnd (clean : List Char) (cs start : Int) : Int :=
  if start + cs < (clean.length : Int) then
    if 2 * jsLastIndexOf clean nlnl (start + cs) > 2 * start + cs then
      jsLastIndexOf clean nlnl (start + cs)
    else if 2 * jsLastIndexOf clean dotSp (start + cs) > 2 * start + cs then
      jsLastIndexOf clean dotSp (start + cs) + 1
    else start + cs
  else start + cs

/-- One iteration of the chunker's cursor loop: the trimmed slice for this
window and the next cursor position `end - overlap`. -/
def chunkStep (clean : List Char) (cs ov start : Int) : List Char × Int :=
  (jsTrim (jsSlice clean start (computeEnd clean cs start)),
   computeEnd clean cs start - ov)

/-- The chunker's `while (start < cleanText.length)` loop
(parser.ts lines 109-138), fuelled: `none` means the fuel ran out, i.e. the
loop did not terminate within `fuel` iterations.  A produced chunk is appended
only when non-empty (`if (chunk)`); the loop breaks after updating the cursor
when `start >= cleanText.length - overlap`. -/
def chunkLoop (clean : List Char) (cs ov : Int) :
    Nat → Int → List (List Char) → Option (List (List Char))
  | 0, _, _ => none
  | fuel + 1, start, acc =>
      if start < (clean.length : Int) then
        let res := chunkStep clean cs ov start
        let acc1 := if res.1 = [] then acc else acc ++ [res.1]
        if res.2 ≥ (clean.length : Int) - ov then some acc1
        else chunkLoop clean cs ov fuel res.2 acc1
      else some acc

/-- The chunker's text normalisation: CRLF → LF, collapse 3+ newlines to 2,
trim (parser.ts lines 100-103). -/
def cleanup (text : List Char) : List Char :=
  jsTrim (collapseNL (replaceCRLF text))

/-- `splitIntoChunks(text, chunkSize, overlap)` (parser.ts lines 92-141).
Text of cleaned length at most `chunkSize` is returned as the single chunk;
otherwise the cursor loop runs.  The loop is fuelled with
`cleanText.length + 1` iterations, which lemma `chunkLoop_some` below proves
sufficient for every terminating parameter regime; `none` models
non-termination of the JS loop. -/
def splitIntoChunks (text : List Char) (cs ov : Int) : Option (List (List Char)) :=
  let clean := cleanup text
  if (clean.length : Int) ≤ cs then some [clean]
  else chunkLoop clean cs ov (clean.length + 1) 0 []

/-! ### Parser metadata (`src/knowledge/parser.ts`) -/

/-- JS `String.prototype.split('\n')`. -/
def splitNL : List Char → List (List Char)
  | [] => [[]]
  | '\n' :: rest => [] :: splitNL rest
  | c :: rest =>
      match splitNL rest with
      | [] => [[c]]
      | line :: more => (c :: line) :: more

/-- Node `path.basename`: the final path segment (separator `/`). -/
def basename (l : List Char) : List Char :=
  (l.reverse.takeWhile (· ≠ '/')).reverse

/-- Node `path.extname`: from the last dot of the final segment to the end,
empty when there is no dot or the only dot leads the segment. -/
def extname (l : List Char) : List Char :=
  let b := basename l
  let revTail := b.reverse.takeWhile (· ≠ '.')
  if revTail.length = b.length then []
  else if b.length - revTail.length - 1 = 0 then []
  else '.' :: revTail.reverse

/-- `extractTitle(content, fileName)` (parser.ts lines 76-87): first
non-blank line trimmed, truncated to 97 characters plus an ellipsis when over
100; the file name when every line is blank. -/
def extractTitle (content fileName : List Char) : List Char :=
  let lines := (splitNL content).filter (fun l => jsTrim l ≠ [])
  match lines with
  | [] => fileName
  | l :: _ =>
      let firstLine := jsTrim l
      if firstLine.length ≤ 100 then firstLine
      else firstLine.take 97 ++ str "..."

/-- UTF-8 encoding of one scalar value (`Buffer.from(string)`). -/
def utf8Char (c : Char) : List Nat :=
  let n := c.toNat
  if n < 0x80 then [n]
  else if n < 0x800 then [0xC0 + n / 64, 0x80 + n % 64]
  else if n < 0x10000 then
    [0xE0 + n / 4096, 0x80 + n / 64 % 64, 0x80 + n % 64]
  else
    [0xF0 + n / 262144, 0x80 + n / 4096 % 64, 0x80 + n / 64 % 64, 0x80 + n % 64]

/-- `Buffer.from(s)`: UTF-8 bytes of a string. -/
def utf8Encode (l : List Char) : List Nat := (l.map utf8Char).flatten

/-- The base64url alphabet. -/
def b64Alphabet : List Char :=
  str "ABCDEFGHIJKLMNOPQRSTUVWXYZabcdefghijklmnopqrstuvwxyz0123456789-_"

/-- One base64url digit. -/
def b64Digit (i : Nat) : Char := b64Alphabet.getD i 'A'

/-- Node `buffer.toString('base64url')` (no padding). -/
def b64urlEncode : List Nat → List Char
  | [] => []
  | [a] => [b64Digit (a / 4), b64Digit (a % 4 * 16)]
  | [a, b] => [b64Digit (a / 4), b64Digit (a % 4 * 16 + b / 16), b64Digit (b % 16 * 4)]
  | a :: b :: c :: rest =>
      b64Digit (a / 4) :: b64Digit (a % 4 * 16 + b / 16) ::
      b64Digit (b % 16 * 4 + c / 64) :: b64Digit (c % 64) :: b64urlEncode rest

/-- Is `c` in `[a-z0-9]` (the characters `generateDocumentId` keeps)? -/
def isLowerAlnum (c : Char) : Bool :=
  ('a' ≤ c && c ≤ 'z') || ('0' ≤ c && c ≤ '9')

/-- `generateDocumentId(filePath)` (parser.ts lines 146-154): 12 base64url
characters of the `\`-normalised path joined to the sanitised lower-cased
base name (non-`[a-z0-9]` replaced by `-`, truncated to 30). -/
def generateDocumentId (filePath : List Char) : List Char :=
  let normalized := filePath.map (fun c => if c = '\\' then '/' else c)
  let hash := (b64urlEncode (utf8Encode normalized)).take 12
  let base := basename filePath
  let stem := base.take (base.length - (extname filePath).length)
  let name :=
    ((stem.map Char.toLower).map
      (fun c => if isLowerAlnum c then c else '-')).take 30
  name ++ '-' :: hash

/-- Node `path.relative(basePath, filePath)` modelled for the calls the
ingestion pipeline makes: `filePath` produced by `path.join` under
`basePath`, so the relative path is the suffix after `basePath ++ "/"`
(`filePath` itself when that prefix is absent, and empty when equal). -/
def pathRelative (basePath filePath : List Char) : List Char :=
  if filePath = basePath then []
  else if filePath.take (basePath.length + 1) = basePath ++ ['/'] then
    filePath.drop (basePath.length + 1)
  else filePath

/-- JS `String.prototype.split('/')` (Node `path.sep` on POSIX). -/
def splitSlash : List Char → List (List Char)
  | [] => [[]]
  | '/' :: rest => [] :: splitSlash rest
  | c :: rest =>
      match splitSlash rest with
      | [] => [[c]]
      | seg :: more => (c :: seg) :: more

/-- `extractCategory(filePath, basePath)` (parser.ts lines 159-166): the first
segment of the relative path when it has more than one segment. -/
def extractCategory (filePath basePath : List Char) : Option (List Char) :=
  let parts := splitSlash (pathRelative basePath filePath)
  if 1 < parts.length then some (parts.getD 0 []) else none

/-- `DocumentChunk.metadata` (parser.ts lines 15-23). -/
structure ChunkMeta where
  documentId : List Char
  documentName : List Char
  documentPath : List Char
  chunkIndex : Nat
  totalChunks : Nat
  category : Option (List Char)
  title : Option (List Char)
  deriving DecidableEq

/-- `DocumentChunk` (parser.ts lines 12-24). -/
structure DocumentChunk where
  id : List Char
  content : List Char
  metadata : ChunkMeta
  deriving DecidableEq

/-- `parseAndChunkDocument(filePath, basePath)` (parser.ts lines 171-196),
with the already-parsed `content` passed in (`parseDocument` is file and
format-extractor I/O) and the chunking parameters explicit (their defaults
come from `CONFIG.knowledge`, which is outside the provided sources).
`none` propagates chunker non-termination. -/
def parseAndChunkDocument (filePath basePath content : List Char) (cs ov : Int) :
    Option (List DocumentChunk) :=
  match splitIntoChunks content cs ov with
  | none => none
  | some textChunks =>
      let documentId := generateDocumentId filePath
      let documentName := basename filePath
      let category := extractCategory filePath basePath
      let title := extractTitle content documentName
      some (textChunks.enum.map (fun p =>
        { id := documentId ++ str "-chunk-" ++ str (toString p.1)
          content := p.2
          metadata :=
            { documentId := documentId
              documentName := documentName
              documentPath := filePath
              chunkIndex := p.1
              totalChunks := textChunks.length
              category := category
              title := some title } }))

/-! ### Document locator (`findDocuments`, parser.ts lines 201-230) -/

/-- A file-system tree: files, and directories that are readable or not
(`readdirSync` on an unreadable directory throws `EACCES`). -/
inductive FSEntry where
  | file (name : List Char)
  | dir (name : List Char) (readable : Bool) (children : List FSEntry)

/-- Errors `fs.readdirSync` can raise in the modelled tree. -/
inductive FsError where
  | eacces
  | notDir
  deriving DecidableEq

/-- The extensions `findDocuments` accepts. -/
def supportedExtensions : List (List Char) :=
  [str ".docx", str ".doc", str ".pdf", str ".txt", str ".md"]

/-- Does a directory entry name start with the hidden marker `.`? -/
def hiddenName (n : List Char) : Bool := n.headD ' ' = '.'

mutual

/-- `scanDir(currentPath)` applied to one entry known to be at
`currentPath`: reading a file or an unreadable directory throws; otherwise
the children are scanned in order. -/
def scanDir (currentPath : List Char) : FSEntry → Except FsError (List (List Char))
  | .file _ => .error .notDir
  | .dir _ false _ => .error .eacces
  | .dir _ true children => scanChildren currentPath children

/-- The `for (const entry of entries)` body of `scanDir`: recurse into
non-hidden directories (errors propagate), collect files whose lower-cased
extension is supported. -/
def scanChildren (currentPath : List Char) :
    List FSEntry → Except FsError (List (List Char))
  | [] => .ok []
  | e :: rest =>
      match e with
      | .dir n _ _ =>
          if hiddenName n then scanChildren currentPath rest
          else do
            let sub ← scanDir (currentPath ++ '/' :: n) e
            let tail ← scanChildren currentPath rest
            .ok (sub ++ tail)
      | .file n => do
          let tail ← scanChildren currentPath rest
          if supportedExtensions.contains ((extname n).map Char.toLower) then
            .ok ((currentPath ++ '/' :: n) :: tail)
          else
            .ok tail

end

/-- `findDocuments(dirPath)`: `none` models `fs.existsSync(dirPath)` false
(empty result); otherwise the root entry is scanned unconditionally, so any
`readdirSync` failure below it — including an unreadable root — propagates
as an exception. -/
def findDocuments (dirPath : List Char) (root : Option FSEntry) :
    Except FsError (List (List Char)) :=
  match root with
  | none => .ok []
  | some e => scanDir dirPath e

mutual

/-- Sufficient condition for `scanDir` not to throw: the entry is a readable
directory and so is every non-hidden directory reachable from it. -/
def scanOk : FSEntry → Bool
  | .file _ => false
  | .dir _ r children => r && scanChildrenOk children

/-- `scanOk` for each child that `scanChildren` recurses into. -/
def scanChildrenOk : List FSEntry → Bool
  | [] => true
  | .file _ :: rest => scanChildrenOk rest
  | .dir n r ch :: rest =>
      (if hiddenName n then true else scanOk (.dir n r ch)) && scanChildrenOk rest

end

/-! ### Embedding client (`src/knowledge/embeddings.ts`) -/

/-- One element of the embedding response's `data` array:
`{embedding, index}`.  Vector components are opaque (`Int` stands in for the
JSON numbers; no arithmetic is performed on them). -/
structure EmbItem where
  index : Nat
  embedding : List Int
  deriving DecidableEq

/-- A non-2xx embedding response: HTTP status and body
(`Embedding API error`). -/
structure EmbError where
  status : Nat
  body : List Char
  deriving DecidableEq

/-- `data.data.sort((a, b) => a.index - b.index)`: sorting the batch items
ascending by their `index` marker.  On the index-distinct responses the
claims quantify over, every correct comparison sort agrees, so insertion
sort is a faithful model. -/
def sortByIndex (items : List EmbItem) : List EmbItem :=
  List.insertionSort (fun a b => a.index ≤ b.index) items

/-- `createEmbeddings(texts)` (embeddings.ts lines 42-81): split into batches
of 100, POST each batch, throw on a non-2xx response, sort each response's
items by `index` and append their embeddings. -/
def createEmbeddings (backend : List (List Char) → Except EmbError (List EmbItem))
    (texts : List (List Char)) : Except EmbError (List (List Int)) :=
  if h : texts = [] then .ok []
  else do
    let data ← backend (texts.take 100)
    let tail ← createEmbeddings backend (texts.drop 100)
    .ok ((sortByIndex data).map (·.embedding) ++ tail)
  termination_by texts.length
  decreasing_by
    simp only [List.length_drop]
    have : texts.length ≠ 0 := fun hn => h (List.eq_nil_of_length_eq_zero hn)
    omega

/-- The number of `fetch` calls `createEmbeddings(texts)` performs: one per
batch of up to 100 texts, none for an empty input. -/
def embedFetchCount (texts : List (List Char)) : Nat :=
  if h : texts = [] then 0
  else 1 + embedFetchCount (texts.drop 100)
  termination_by texts.length
  decreasing_by
    simp only [List.length_drop]
    have : texts.length ≠ 0 := fun hn => h (List.eq_nil_of_length_eq_zero hn)
    omega

/-! ### Qdrant wrapper (`src/knowledge/qdrant.ts`) -/

/-- The `CONFIG.knowledge` fields the wrapper reads (`config.js` is outside
the provided sources, so the values stay abstract). -/
structure KnowledgeConfig where
  collectionName : List Char
  embeddingDimension : Nat
  chunkSize : Int
  chunkOverlap : Int

/-- Qdrant distance metrics. -/
inductive Distance where
  | cosine
  | euclid
  | dot
  deriving DecidableEq

/-- The collection parameters `createCollection` sends. -/
structure CollectionParams where
  size : Nat
  distance : Distance
  defaultSegmentNumber : Nat
  replicationFactor : Nat
  deriving DecidableEq

/-- One keyword payload index. -/
structure PayloadIndex where
  collection : List Char
  fieldName : List Char
  fieldSchema : List Char
  deriving DecidableEq

/-- A stored point's payload (qdrant.ts lines 728-738). -/
structure PointPayload where
  chunkId : List Char
  content : List Char
  documentId : List Char
  documentName : List Char
  documentPath : List Char
  chunkIndex : Nat
  totalChunks : Nat
  category : Option (List Char)
  title : Option (List Char)
  deriving DecidableEq

/-- The vector store's state as the wrapper observes it: the collection
registry, the payload indexes, and the points of the knowledge collection
(the only collection whose points the wrapper touches). -/
structure QdrantState where
  collections : List (List Char × CollectionParams)
  payloadIndexes : List PayloadIndex
  points : List PointPayload
  deriving DecidableEq

/-- The store mutations `createCollection` can issue. -/
inductive StoreMutation where
  | createCol (name : List Char) (params : CollectionParams)
  | createIndex (collection fieldName fieldSchema : List Char)
  deriving DecidableEq

/-- `collectionExists()` (qdrant.ts lines 650-660): is the configured name
among the listed collections?  (A transport failure is caught and reported
as `false`; the pure model covers the reachable-store behaviour.) -/
def collectionExists (cfg : KnowledgeConfig) (s : QdrantState) : Bool :=
  s.collections.any (fun c => decide (c.1 = cfg.collectionName))

/-- `createCollection()` (qdrant.ts lines 665-697): no-op when the collection
exists; otherwise create it with the configured dimension, cosine distance,
`default_segment_number` 2, `replication_factor` 1, then create the two
keyword payload indexes.  Returns the new state and the mutations issued. -/
def createCollection (cfg : KnowledgeConfig) (s : QdrantState) :
    QdrantState × List StoreMutation :=
  if collectionExists cfg s then (s, [])
  else
    let params : CollectionParams :=
      { size := cfg.embeddingDimension
        distance := .cosine
        defaultSegmentNumber := 2
        replicationFactor := 1 }
    ({ s with
        collections := s.collections ++ [(cfg.collectionName, params)]
        payloadIndexes := s.payloadIndexes ++
          [{ collection := cfg.collectionName, fieldName := str "documentId"
             fieldSchema := str "keyword" },
           { collection := cfg.collectionName, fieldName := str "category"
             fieldSchema := str "keyword" }] },
     [.createCol cfg.collectionName params,
      .createIndex cfg.collectionName (str "documentId") (str "keyword"),
      .createIndex cfg.collectionName (str "category") (str "keyword")])

/-- `deleteCollection()` (qdrant.ts lines 702-709): remove the collection,
its indexes and its points when present; no-op otherwise. -/
def deleteCollection (cfg : KnowledgeConfig) (s : QdrantState) : QdrantState :=
  if collectionExists cfg s then
    { collections := s.collections.filter (fun c => !(decide (c.1 = cfg.collectionName)))
      payloadIndexes := s.payloadIndexes.filter
        (fun i => !(decide (i.collection = cfg.collectionName)))
      points := [] }
  else s

/-- A search/scroll result row (qdrant.ts lines 775-785); the floating-point
`score` field is omitted (single-precision similarity scores are outside the
claims and the integer model). -/
structure SearchResult where
  content : List Char
  documentId : List Char
  documentName : List Char
  documentPath : List Char
  chunkIndex : Nat
  totalChunks : Nat
  category : Option (List Char)
  title : Option (List Char)
  deriving DecidableEq

/-- The payload-to-`SearchResult` projection of `getDocumentChunks`
(qdrant.ts lines 858-868). -/
def toSearchResult (p : PointPayload) : SearchResult :=
  { content := p.content
    documentId := p.documentId
    documentName := p.documentName
    documentPath := p.documentPath
    chunkIndex := p.chunkIndex
    totalChunks := p.totalChunks
    category := p.category
    title := p.title }

/-- `getDocumentChunks(documentId)` (qdrant.ts lines 842-872) applied to the
points the store's filtered scroll returned, in the store's order: map the
payloads and sort ascending by `chunkIndex`
(`chunks.sort((a, b) => a.chunkIndex - b.chunkIndex)`; on the index-distinct
inputs the claims quantify over, every correct comparison sort agrees with
insertion sort). -/
def getDocumentChunksM (returned : List PointPayload) : List SearchResult :=
  List.insertionSort (fun a b => a.chunkIndex ≤ b.chunkIndex)
    (returned.map toSearchResult)

/-- The reassembled text of `executeGetInstruction` (knowledge.ts lines
583-584): `chunks.map((c) => c.content).join('\n\n')` over the sorted
chunks. -/
def fullContentOf (returned : List PointPayload) : List Char :=
  List.intercalate (str "\n\n") ((getDocumentChunksM returned).map (·.content))

/-- Boolean lexicographic order on UTF-16-style code units: JS
`Array.prototype.sort()` with no comparator compares strings this way. -/
def lexLeB : List Char → List Char → Bool
  | [], _ => true
  | _ :: _, [] => false
  | a :: as, b :: bs =>
      if a.toNat < b.toNat then true
      else if b.toNat < a.toNat then false
      else lexLeB as bs

/-- First-seen-order deduplication of strings (JS `Set` insertion order). -/
def dedupStrs (seen : List (List Char)) : List (List Char) → List (List Char)
  | [] => seen
  | s :: rest =>
      if seen.contains s then dedupStrs seen rest
      else dedupStrs (seen ++ [s]) rest

/-- The document listing entry of `listDocuments`. -/
structure DocMeta where
  documentId : List Char
  documentName : List Char
  category : Option (List Char)
  title : Option (List Char)
  deriving DecidableEq

/-- The `for (const point of results.points)` body of `listDocuments`: keep
the first-seen payload per `documentId` (JS `Map` preserves insertion
order). -/
def dedupDocs (seen : List DocMeta) : List PointPayload → List DocMeta
  | [] => seen
  | p :: rest =>
      if seen.any (fun d => decide (d.documentId = p.documentId)) then
        dedupDocs seen rest
      else
        dedupDocs (seen ++ [{ documentId := p.documentId
                              documentName := p.documentName
                              category := p.category
                              title := p.title }]) rest

/-- The `while (true)` scroll loop of `listDocuments` (qdrant.ts lines
910-931): pages of 100 through the collection's points, breaking when the
store signals no further cursor. -/
def scrollLoop (seen : List DocMeta) (remaining : List PointPayload) : List DocMeta :=
  if h : remaining = [] then seen
  else scrollLoop (dedupDocs seen (remaining.take 100)) (remaining.drop 100)
  termination_by remaining.length
  decreasing_by
    simp only [List.length_drop]
    have : remaining.length ≠ 0 := fun hn => h (List.eq_nil_of_length_eq_zero hn)
    omega

/-- `listDocuments()` (qdrant.ts lines 897-934): empty when the collection
does not exist, otherwise the first-seen payload per documentId across a
full scroll. -/
def listDocuments (cfg : KnowledgeConfig) (s : QdrantState) : List DocMeta :=
  if !collectionExists cfg s then []
  else scrollLoop [] s.points

/-- `listCategories()` (qdrant.ts lines 939-950): the distinct non-empty
categories of the document listing, sorted (JS default string sort). -/
def listCategories (cfg : KnowledgeConfig) (s : QdrantState) : List (List Char) :=
  List.insertionSort (fun a b => lexLeB a b = true)
    (dedupStrs [] ((listDocuments cfg s).filterMap (·.category)))

/-! ### Ingestion CLI (`src/knowledge/ingest.ts`) and `getDocumentStats` -/

/-- One aggregated document row of `getDocumentStats`. -/
structure DocAgg where
  name : List Char
  chunks : Nat
  category : Option (List Char)
  deriving DecidableEq

/-- Increment the chunk count of the entry with the given key
(`existing.chunks++`). -/
def bumpAgg (key : List Char) : List (List Char × DocAgg) → List (List Char × DocAgg)
  | [] => []
  | (k, a) :: rest =>
      if k = key then (k, { a with chunks := a.chunks + 1 }) :: rest
      else (k, a) :: bumpAgg key rest

/-- The `for (const chunk of chunks)` fold of `getDocumentStats`
(parser.ts lines 244-258) building the per-document map in insertion
order. -/
def aggDocs (acc : List (List Char × DocAgg)) : List DocumentChunk → List (List Char × DocAgg)
  | [] => acc
  | c :: rest =>
      if acc.any (fun e => decide (e.1 = c.metadata.documentId)) then
        aggDocs (bumpAgg c.metadata.documentId acc) rest
      else
        aggDocs (acc ++ [(c.metadata.documentId,
          { name := c.metadata.documentName, chunks := 1
            category := c.metadata.category })]) rest

/-- The aggregate statistics `getDocumentStats` returns. -/
structure DocStats where
  totalDocuments : Nat
  totalChunks : Nat
  categories : List (List Char)
  documents : List DocAgg
  deriving DecidableEq

/-- `getDocumentStats(chunks)` (parser.ts lines 235-266). -/
def getDocumentStats (chunks : List DocumentChunk) : DocStats :=
  let docMap := aggDocs [] chunks
  { totalDocuments := docMap.length
    totalChunks := chunks.length
    categories := List.insertionSort (fun a b => lexLeB a b = true)
      (dedupStrs [] (chunks.filterMap (·.metadata.category)))
    documents := docMap.map (·.2) }

/-- A parse failure (`parseDocument` throwing `Unsupported file format` or a
format-extractor error); the message is opaque. -/
structure ParseError where
  message : List Char
  deriving DecidableEq

/-- The `for (const docPath of documentPaths)` loop of `main`
(ingest.ts lines 81-91): parse and chunk each document, catching and skipping
per-document errors; `none` propagates chunker non-termination. -/
def collectChunks (basePath : List Char) (cs ov : Int) :
    List (List Char × Except ParseError (List Char)) → Option (List DocumentChunk)
  | [] => some []
  | (_, .error _) :: rest => collectChunks basePath cs ov rest
  | (p, .ok content) :: rest =>
      match parseAndChunkDocument p basePath content cs ov with
      | none => none
      | some cs' => (collectChunks basePath cs ov rest).map (cs' ++ ·)

/-- How a run of the ingestion CLI ends.  The `exit…` constructors model
`process.exit(1)`: `exitNoDocuments` for "No documents found",
`exitNoChunks` for "No chunks created", `exitIndexFailed` for a failed
`indexChunks`. -/
inductive IngestOutcome where
  | exitNoDocuments
  | exitNoChunks
  | exitIndexFailed
  | completed (totalDocuments totalChunks : Nat) (categories : List (List Char))
  deriving DecidableEq

/-- `main()` of the ingestion CLI (ingest.ts lines 29-133), modelled over the
located documents paired with their parse outcomes (in `findDocuments`
order), returning how the run ends together with the number of calls made to
the embedding endpoint (each batch of up to 100 chunk texts inside
`indexChunks` → `createEmbeddings` is one call).  Embedding/indexing
failures and chunker non-termination are outside this success-path model;
`none` covers the latter. -/
def ingestMain (cfg : KnowledgeConfig) (s : QdrantState) (reset : Bool)
    (basePath : List Char)
    (docs : List (List Char × Except ParseError (List Char))) :
    Option (IngestOutcome × Nat) :=
  let s0 := if reset then deleteCollection cfg s else s
  if docs.isEmpty then some (.exitNoDocuments, 0)
  else
    let _s1 := (createCollection cfg s0).1
    match collectChunks basePath cfg.chunkSize cfg.chunkOverlap docs with
    | none => none
    | some allChunks =>
        if allChunks = [] then some (.exitNoChunks, 0)
        else
          let stats := getDocumentStats allChunks
          some (.completed stats.totalDocuments stats.totalChunks stats.categories,
                embedFetchCount (allChunks.map (·.content)))

/-! ### Concrete instances used by witnesses and counterexamples -/

/-- A concrete per-text embedding assignment for exercising the embedding
client: one-component vectors. -/
def embedOf0 (t : List Char) : List Int := [(t.length : Int)]

/-- A simulated embedding backend that returns every batch's items in
reversed (shuffled) order, each carrying its position marker. -/
def backend0 (b : List (List Char)) : Except EmbError (List EmbItem) :=
  .ok (((b.map embedOf0).enum.map (fun p => EmbItem.mk p.1 p.2)).reverse)

/-- A concrete knowledge configuration. -/
def cfg0 : KnowledgeConfig :=
  { collectionName := str "knowledge"
    embeddingDimension := 1536
    chunkSize := 500
    chunkOverlap := 50 }

/-- The collection parameters `createCollection` produces for `cfg0`. -/
def params0 : CollectionParams :=
  { size := 1536, distance := .cosine, defaultSegmentNumber := 2, replicationFactor := 1 }

/-- A store state in which the knowledge collection already exists. -/
def statePresent0 : QdrantState :=
  { collections := [(str "knowledge", params0)], payloadIndexes := [], points := [] }

/-- A store state with no collections. -/
def stateEmpty0 : QdrantState :=
  { collections := [], payloadIndexes := [], points := [] }

/-- A concrete stored chunk payload with the given chunk index and content. -/
def payload0 (i : Nat) (c : List Char) : PointPayload :=
  { chunkId := str "c", content := c, documentId := str "doc"
    documentName := str "doc.txt", documentPath := str "/kb/doc.txt"
    chunkIndex := i, totalChunks := 3, category := none, title := none }

/-- The `SearchResult` view of `payload0`. -/
def sr0 (i : Nat) (c : List Char) : SearchResult := toSearchResult (payload0 i c)

/-- A concrete document path under the ingest root `bp0`. -/
def fp0 : List Char := str "/kb/faq/returns.txt"

/-- A concrete ingest root. -/
def bp0 : List Char := str "/kb"

/-- The chunks `parseAndChunkDocument` produces for the six-character
document `"abcdef"` with chunk size 3 and overlap 1. -/
def chunksC5 : List DocumentChunk :=
  (parseAndChunkDocument fp0 bp0 (str "abcdef") 3 1).getD []

/-- An existing but unreadable root directory. -/
def fsUnreadable0 : FSEntry := .dir (str "docs") false []

/-- A readable tree containing a supported file, a hidden unreadable
directory, and a readable category folder. -/
def fsTree0 : FSEntry :=
  .dir (str "d") true
    [.file (str "a.txt"), .dir (str ".git") false [],
     .dir (str "faq") true [.file (str "r.md")]]

/-! ### Helper lemmas -/

theorem dropWhile_head_false {p : Char → Bool} :
    ∀ {l a t}, List.dropWhile p l = a :: t → p a = false := by
  intro l
  induction l with
  | nil => intro a t h; cases h
  | cons x xs ih =>
      intro a t h
      rw [List.dropWhile_cons] at h
      by_cases hx : p x = true
      · exact ih (by simpa [hx] using h)
      · simp only [hx, if_false] at h
        cases h
        simpa using hx

theorem jsTrim_has_nonWs {x : List Char} (h : jsTrim x ≠ []) :
    ∃ ch ∈ jsTrim x, isJsWs ch = false := by
  unfold jsTrim at *
  rcases hd : List.dropWhile isJsWs (List.dropWhile isJsWs x).reverse with _ | ⟨a, t⟩
  · rw [hd] at h; simp at h
  · refine ⟨a, ?_, dropWhile_head_false hd⟩
    simp

theorem length_dropWhile_le (p : Char → Bool) (l : List Char) :
    (List.dropWhile p l).length ≤ l.length := by
  induction l with
  | nil => simp
  | cons x xs ih =>
      rw [List.dropWhile_cons]
      by_cases hx : p x = true <;> simp [hx] <;> omega

theorem jsTrim_length_le (x : List Char) : (jsTrim x).length ≤ x.length := by
  unfold jsTrim
  have h1 := length_dropWhile_le isJsWs x
  have h2 := length_dropWhile_le isJsWs (List.dropWhile isJsWs x).reverse
  simp only [List.length_reverse] at *
  omega

theorem matchAt_fit {l pat : List Char} {i : Nat} (hpat : pat ≠ [])
    (h : matchAt l pat i = true) : i + pat.length ≤ l.length := by
  unfold matchAt at h
  have hlen : ((l.drop i).take pat.length).length = pat.length := by
    rw [eq_of_beq h]
  rw [List.length_take, List.length_drop] at hlen
  have hp : 0 < pat.length := List.length_pos.mpr hpat
  omega

theorem lastIdxGo_cases (l pat : List Char) (hpat : pat ≠ []) :
    ∀ n : Nat, lastIdxGo l pat n = -1 ∨
      (0 ≤ lastIdxGo l pat n ∧ lastIdxGo l pat n ≤ (n : Int) ∧
        lastIdxGo l pat n + (pat.length : Int) ≤ (l.length : Int)) := by
  intro n
  induction n with
  | zero =>
      by_cases h : matchAt l pat 0 = true
      · have hfit := matchAt_fit hpat h
        refine Or.inr ⟨?_, ?_, ?_⟩ <;> simp [lastIdxGo, h] <;> push_cast <;> omega
      · simp [lastIdxGo, h]
  | succ k ih =>
      by_cases h : matchAt l pat (k + 1) = true
      · have hfit := matchAt_fit hpat h
        refine Or.inr ⟨?_, ?_, ?_⟩ <;> simp [lastIdxGo, h] <;> push_cast <;> omega
      · rcases ih with h1 | ⟨h1, h2, h3⟩
        · left; simpa [lastIdxGo, h] using h1
        · refine Or.inr ⟨?_, ?_, ?_⟩ <;> simp [lastIdxGo, h] <;> push_cast <;> omega

theorem jsLastIndexOf_cases (l pat : List Char) (f : Int) (hpat : pat ≠ []) :
    jsLastIndexOf l pat f = -1 ∨
      (0 ≤ jsLastIndexOf l pat f ∧ jsLastIndexOf l pat f ≤ max f 0 ∧
        jsLastIndexOf l pat f + (pat.length : Int) ≤ (l.length : Int)) := by
  unfold jsLastIndexOf
  by_cases hf : f < 0
  · rw [if_pos hf]
    rcases lastIdxGo_cases l pat hpat 0 with h | ⟨h1, h2, h3⟩
    · exact Or.inl h
    · exact Or.inr ⟨h1, by omega, h3⟩
  · rw [if_neg hf]
    rcases lastIdxGo_cases l pat hpat (min f.toNat l.length) with h | ⟨h1, h2, h3⟩
    · exact Or.inl h
    · refine Or.inr ⟨h1, ?_, h3⟩
      have hm : min f.toNat l.length ≤ f.toNat := Nat.min_le_left _ _
      have htn : ((f.toNat : Int)) = f := Int.toNat_of_nonneg (not_lt.mp hf)
      omega

theorem rIdx_le_length (l : List Char) (x : Int) : rIdx l x ≤ l.length := by
  unfold rIdx
  by_cases h : x < 0 <;> simp [h] <;> omega

theorem jsSlice_length (l : List Char) (a b : Int) :
    (jsSlice l a b).length = rIdx l b - rIdx l a := by
  unfold jsSlice
  rw [List.length_drop, List.length_take]
  have := rIdx_le_length l b
  omega

theorem rIdx_neg (l : List Char) (x : Int) (h : x < 0) :
    (rIdx l x : Int) = max ((l.length : Int) + x) 0 := by
  unfold rIdx
  simp only [h, if_true]
  omega

theorem rIdx_nonneg (l : List Char) (x : Int) (h : 0 ≤ x) :
    (rIdx l x : Int) = min x (l.length : Int) := by
  unfold rIdx
  simp only [not_lt.mpr h, if_false]
  have hx : ((x.toNat : Int)) = x := Int.toNat_of_nonneg h
  omega

/-- Two lists that are permutations of each other and both strictly sorted
along an injective-on-them `Nat` key are equal; applied to the canonical
(index-sorted) form of a shuffled batch or chunk list. -/
theorem insertionSort_key_eq {α : Type} [DecidableEq α] (key : α → Nat)
    (canon l : List α) (hs : List.Pairwise (fun a b => key a < key b) canon)
    (hp : l.Perm canon) :
    List.insertionSort (fun a b => key a ≤ key b) l = canon := by
  haveI : IsTotal α (fun a b : α => key a ≤ key b) :=
    ⟨fun a b => Nat.le_total (key a) (key b)⟩
  haveI : IsTrans α (fun a b : α => key a ≤ key b) :=
    ⟨fun _ _ _ hab hbc => le_trans hab hbc⟩
  haveI : IsAntisymm α (fun a b : α => key a < key b) :=
    ⟨fun _ _ h1 h2 => absurd (h1.trans h2) (lt_irrefl _)⟩
  set s := List.insertionSort (fun a b : α => key a ≤ key b) l with hsdef
  have hperm : s.Perm canon := (List.perm_insertionSort _ l).trans hp
  have hsort : List.Sorted (fun a b : α => key a ≤ key b) s :=
    List.sorted_insertionSort _ l
  have hnodupC : (canon.map key).Nodup :=
    List.Pairwise.imp (fun h => ne_of_lt h) ((List.pairwise_map).mpr hs)
  have hnodupS : (s.map key).Nodup := ((hperm.map key).nodup_iff).mpr hnodupC
  have hne : List.Pairwise (fun a b => key a ≠ key b) s :=
    (List.pairwise_map).mp hnodupS
  have hlt : List.Sorted (fun a b : α => key a < key b) s :=
    List.Pairwise.imp₂ (fun _ _ hle hne => lt_of_le_of_ne hle hne) hsort hne
  exact List.eq_of_perm_of_sorted hperm hlt hs

/-! ### Chunker cursor-loop analysis -/

theorem nlnl_ne_nil : nlnl ≠ [] := by decide

theorem dotSp_ne_nil : dotSp ≠ [] := by decide

theorem computeEnd_cases (clean : List Char) (cs start : Int) :
    computeEnd clean cs start = start + cs ∨
      (start + cs < (clean.length : Int) ∧
        computeEnd clean cs start = jsLastIndexOf clean nlnl (start + cs) ∧
        2 * computeEnd clean cs start > 2 * start + cs) ∨
      (start + cs < (clean.length : Int) ∧
        computeEnd clean cs start = jsLastIndexOf clean dotSp (start + cs) + 1 ∧
        2 * (computeEnd clean cs start - 1) > 2 * start + cs) := by
  unfold computeEnd
  split_ifs with h1 h2 h3
  · exact Or.inr (Or.inl ⟨h1, rfl, h2⟩)
  · refine Or.inr (Or.inr ⟨h1, rfl, ?_⟩)
    omega
  · exact Or.inl rfl
  · exact Or.inl rfl

theorem chunkStep_progress (clean : List Char) (cs ov start : Int)
    (hcs : 1 ≤ cs) (hov2 : 2 * ov ≤ cs) :
    start + 1 ≤ (chunkStep clean cs ov start).2 := by
  show start + 1 ≤ computeEnd clean cs start - ov
  rcases computeEnd_cases clean cs start with h | ⟨_, _, h⟩ | ⟨_, _, h⟩ <;> omega

theorem chunkStep_snd_eq (clean : List Char) (cs ov start : Int)
    (h : (clean.length : Int) ≤ start + cs) :
    (chunkStep clean cs ov start).2 = start + cs - ov := by
  show computeEnd clean cs start - ov = start + cs - ov
  unfold computeEnd
  rw [if_neg (not_lt.mpr h)]

theorem computeEnd_ge_neg1 (clean : List Char) (cs start : Int)
    (hst : -1 - cs ≤ start) : -1 ≤ computeEnd clean cs start := by
  rcases computeEnd_cases clean cs start with h | ⟨_, he, _⟩ | ⟨_, he, _⟩
  · omega
  · rcases jsLastIndexOf_cases clean nlnl (start + cs) nlnl_ne_nil with hi | ⟨hi, _, _⟩ <;>
      omega
  · rcases jsLastIndexOf_cases clean dotSp (start + cs) dotSp_ne_nil with hi | ⟨hi, _, _⟩ <;>
      omega

theorem computeEnd_bounds_nonpos (clean : List Char) (cs start : Int)
    (hst : start ≤ 0) (hcs : 0 ≤ cs) (hlen : cs < (clean.length : Int)) :
    computeEnd clean cs start ≤ cs + 1 ∧
      computeEnd clean cs start ≤ (clean.length : Int) - 1 := by
  rcases computeEnd_cases clean cs start with h | ⟨hb, he, hgt⟩ | ⟨hb, he, hgt⟩
  · omega
  · rcases jsLastIndexOf_cases clean nlnl (start + cs) nlnl_ne_nil with hi | ⟨h1, h2, h3⟩
    · omega
    · have : (nlnl.length : Int) = 2 := by decide
      omega
  · rcases jsLastIndexOf_cases clean dotSp (start + cs) dotSp_ne_nil with hi | ⟨h1, h2, h3⟩
    · omega
    · have : (dotSp.length : Int) = 2 := by decide
      omega

theorem rIdx_char (l : List Char) (x : Int) :
    (x < 0 ∧ (l.length : Int) + x ≤ 0 ∧ (rIdx l x : Int) = 0) ∨
      (x < 0 ∧ 0 ≤ (l.length : Int) + x ∧ (rIdx l x : Int) = (l.length : Int) + x) ∨
      (0 ≤ x ∧ x ≤ (l.length : Int) ∧ (rIdx l x : Int) = x) ∨
      (0 ≤ x ∧ (l.length : Int) ≤ x ∧ (rIdx l x : Int) = (l.length : Int)) := by
  unfold rIdx
  split_ifs with hx <;> push_cast <;> omega

theorem chunkStep_len_le (clean : List Char) (cs ov start : Int)
    (hcs : 1 ≤ cs) (hlen : cs < (clean.length : Int))
    (hst : -1 - cs ≤ start) (hstu : start < (clean.length : Int)) :
    (((chunkStep clean cs ov start).1).length : Int) ≤ cs + 1 := by
  have htr := jsTrim_length_le (jsSlice clean start (computeEnd clean cs start))
  have hsl := jsSlice_length clean start (computeEnd clean cs start)
  have hS := rIdx_char clean start
  have hE := rIdx_char clean (computeEnd clean cs start)
  have hgoal : (((chunkStep clean cs ov start).1).length : Int) =
      ((jsTrim (jsSlice clean start (computeEnd clean cs start))).length : Int) := rfl
  rw [hgoal]
  rcases computeEnd_cases clean cs start with h | ⟨hb, he, hgt⟩ | ⟨hb, he, hgt⟩
  · omega
  · rcases jsLastIndexOf_cases clean nlnl (start + cs) nlnl_ne_nil with hi | ⟨h1, h2, h3⟩
    · omega
    · have : (nlnl.length : Int) = 2 := by decide
      omega
  · rcases jsLastIndexOf_cases clean dotSp (start + cs) dotSp_ne_nil with hi | ⟨h1, h2, h3⟩
    · omega
    · have : (dotSp.length : Int) = 2 := by decide
      omega

/-- With `chunkSize ≥ 1`, `overlap ≥ 0` and `2·overlap ≤ chunkSize` the
cursor advances by at least one character per iteration, so
`cleanText.length + 1` iterations of fuel always suffice. -/
theorem chunkLoop_some (clean : List Char) (cs ov : Int)
    (hcs : 1 ≤ cs) (hov : 0 ≤ ov) (hov2 : 2 * ov ≤ cs) :
    ∀ (fuel : Nat) (start : Int) (acc : List (List Char)),
      0 ≤ start → start ≤ (clean.length : Int) →
      (clean.length : Int) + 1 ≤ start + fuel →
      ∃ r, chunkLoop clean cs ov fuel start acc = some r := by
  intro fuel
  induction fuel with
  | zero => intro start acc h0 hsl hfuel; omega
  | succ k ih =>
      intro start acc h0 hsl hfuel
      by_cases hlt : start < (clean.length : Int)
      · rw [chunkLoop, if_pos hlt]
        by_cases hbrk : (chunkStep clean cs ov start).2 ≥ (clean.length : Int) - ov
        · rw [if_pos hbrk]
          exact ⟨_, rfl⟩
        · rw [if_neg hbrk]
          have hprog := chunkStep_progress clean cs ov start hcs hov2
          exact ih _ _ (by omega) (by omega) (by omega)
      · rw [chunkLoop, if_neg hlt]
        exact ⟨acc, rfl⟩

/-- Every chunk the cursor loop appends is trimmed and pushed only when
non-empty, hence non-empty and containing a non-whitespace character. -/
theorem chunkLoop_good (clean : List Char) (cs ov : Int) :
    ∀ (fuel : Nat) (start : Int) (acc r : List (List Char)),
      (∀ c ∈ acc, c ≠ [] ∧ ∃ ch ∈ c, isJsWs ch = false) →
      chunkLoop clean cs ov fuel start acc = some r →
      ∀ c ∈ r, c ≠ [] ∧ ∃ ch ∈ c, isJsWs ch = false := by
  intro fuel
  induction fuel with
  | zero => intro start acc r hacc heq; cases heq
  | succ k ih =>
      intro start acc r hacc heq
      rw [chunkLoop] at heq
      by_cases hlt : start < (clean.length : Int)
      · rw [if_pos hlt] at heq
        have hacc1 : ∀ c ∈ (if (chunkStep clean cs ov start).1 = [] then acc
            else acc ++ [(chunkStep clean cs ov start).1]),
            c ≠ [] ∧ ∃ ch ∈ c, isJsWs ch = false := by
          by_cases hemp : (chunkStep clean cs ov start).1 = []
          · simpa [hemp] using hacc
          · intro c hc
            rw [if_neg hemp, List.mem_append] at hc
            rcases hc with hc | hc
            · exact hacc c hc
            · rw [List.mem_singleton] at hc
              subst hc
              exact ⟨hemp, jsTrim_has_nonWs hemp⟩
        by_cases hbrk : (chunkStep clean cs ov start).2 ≥ (clean.length : Int) - ov
        · rw [if_pos hbrk] at heq
          cases heq
          exact hacc1
        · rw [if_neg hbrk] at heq
          exact ih _ _ _ hacc1 heq
      · rw [if_neg hlt] at heq
        cases heq
        exact hacc

/-- In the regime `overlap ≥ chunkSize + 1` the cursor never advances past 0
and the break condition is unreachable, so the loop never terminates. -/
theorem chunkLoop_none_big_ov (clean : List Char) (cs ov : Int)
    (hcs : 1 ≤ cs) (hlen : cs < (clean.length : Int)) (hov : cs + 1 ≤ ov) :
    ∀ (fuel : Nat) (start : Int) (acc : List (List Char)),
      start ≤ 0 → chunkLoop clean cs ov fuel start acc = none := by
  intro fuel
  induction fuel with
  | zero => intro start acc hst; rfl
  | succ k ih =>
      intro start acc hst
      have hlt : start < (clean.length : Int) := by omega
      rw [chunkLoop, if_pos hlt]
      have hb := computeEnd_bounds_nonpos clean cs start hst (by omega) hlen
      have hsnd : (chunkStep clean cs ov start).2 = computeEnd clean cs start - ov := rfl
      rw [if_neg (by omega)]
      exact ih _ _ (by omega)

/-- In the regime `overlap ≤ chunkSize` the cursor stays at or above
`-1 - chunkSize`, and every chunk produced is at most `chunkSize + 1`
characters long. -/
theorem chunkLoop_len_inv (clean : List Char) (cs ov : Int)
    (hcs : 1 ≤ cs) (hlen : cs < (clean.length : Int)) (hovA : ov ≤ cs) :
    ∀ (fuel : Nat) (start : Int) (acc r : List (List Char)),
      -1 - cs ≤ start →
      (∀ c ∈ acc, (c.length : Int) ≤ cs + 1) →
      chunkLoop clean cs ov fuel start acc = some r →
      ∀ c ∈ r, (c.length : Int) ≤ cs + 1 := by
  intro fuel
  induction fuel with
  | zero => intro start acc r hst hacc heq; cases heq
  | succ k ih =>
      intro start acc r hst hacc heq
      rw [chunkLoop] at heq
      by_cases hlt : start < (clean.length : Int)
      · rw [if_pos hlt] at heq
        have hbound := chunkStep_len_le clean cs ov start hcs hlen hst hlt
        have hacc1 : ∀ c ∈ (if (chunkStep clean cs ov start).1 = [] then acc
            else acc ++ [(chunkStep clean cs ov start).1]),
            (c.length : Int) ≤ cs + 1 := by
          by_cases hemp : (chunkStep clean cs ov start).1 = []
          · simpa [hemp] using hacc
          · intro c hc
            rw [if_neg hemp, List.mem_append] at hc
            rcases hc with hc | hc
            · exact hacc c hc
            · rw [List.mem_singleton] at hc
              subst hc
              exact hbound
        by_cases hbrk : (chunkStep clean cs ov start).2 ≥ (clean.length : Int) - ov
        · rw [if_pos hbrk] at heq
          cases heq
          exact hacc1
        · rw [if_neg hbrk] at heq
          have hge := computeEnd_ge_neg1 clean cs start hst
          have hsnd : (chunkStep clean cs ov start).2 = computeEnd clean cs start - ov := rfl
          exact ih _ _ _ (by omega) hacc1 heq
      · rw [if_neg hlt] at heq
        cases heq
        exact hacc

/-! ### Claim C2 -/

/-- C2 (counterexample): the claim "for every input text, chunk size and
overlap, every chunk returned by `splitIntoChunks` is non-empty and not
whitespace-only" fails at the whitespace-only input `"   "` with the
spec-scenario parameters 500/50: the cleaned text is empty, the
`length <= chunkSize` early return does not guard emptiness, and the single
returned chunk is the empty string. -/
theorem c2_counterexample : splitIntoChunks (str "   ") 500 50 = some [[]] := by decide

/-- C2 (amended): for every input text whose cleaned form is non-empty, and
every chunk size and overlap, every chunk in a terminating run of
`splitIntoChunks` is non-empty and contains a non-whitespace character. -/
theorem c2_chunks_nonempty (text : List Char) (cs ov : Int)
    (chunks : List (List Char))
    (heq : splitIntoChunks text cs ov = some chunks)
    (hne : cleanup text ≠ []) :
    ∀ c ∈ chunks, c ≠ [] ∧ ∃ ch ∈ c, isJsWs ch = false := by
  unfold splitIntoChunks at heq
  by_cases hshort : ((cleanup text).length : Int) ≤ cs
  · rw [if_pos hshort] at heq
    cases heq
    intro c hc
    rw [List.mem_singleton] at hc
    subst hc
    exact ⟨hne, jsTrim_has_nonWs hne⟩
  · rw [if_neg hshort] at heq
    exact chunkLoop_good (cleanup text) cs ov _ 0 [] chunks (by simp) heq

/-- C2 (witness): on `"abcd"` with chunk size 2 and overlap 0 the first
produced chunk `"ab"` is non-empty. -/
theorem c2_witness :
    splitIntoChunks (str "abcd") 2 0 = some [str "ab", str "cd"] ∧ str "ab" ≠ [] :=
  ⟨by decide,
   (c2_chunks_nonempty (str "abcd") 2 0 [str "ab", str "cd"] (by decide) (by decide)
     (str "ab") (by decide)).1⟩

/-! ### Claim C6 -/

/-- With chunk size 2 and overlap 2 on `"abcdefgh"`, one loop iteration from
cursor 0 produces the chunk `"ab"` and returns the cursor to `0` without
triggering the break, so the loop revisits the same cursor forever. -/
theorem chunkLoop_abc_none :
    ∀ (fuel : Nat) (acc : List (List Char)),
      chunkLoop (str "abcdefgh") 2 2 fuel 0 acc = none := by
  intro fuel
  induction fuel with
  | zero => intro acc; rfl
  | succ k ih =>
      intro acc
      have hstep : chunkLoop (str "abcdefgh") 2 2 (k + 1) 0 acc =
          chunkLoop (str "abcdefgh") 2 2 k 0 (acc ++ [str "ab"]) := by
        rw [chunkLoop, if_pos (by decide)]
        rw [show (chunkStep (str "abcdefgh") 2 2 0) = (str "ab", 0) from by decide]
        rw [if_neg (by decide), if_neg (by decide)]
      rw [hstep]
      exact ih _

/-- C6 (counterexample): the claim "for every input text, chunk size > 0 and
overlap ≥ 0 the cursor loop terminates" fails at chunk size 2, overlap 2 on
`"abcdefgh"`: the cut point is `start + 2` and the cursor update
`end - overlap` returns to `start`, so no fuel bound suffices
(`chunkLoop_abc_none`) and the model reports divergence. -/
theorem c6_counterexample : splitIntoChunks (str "abcdefgh") 2 2 = none := by
  unfold splitIntoChunks
  rw [if_neg (by decide), show cleanup (str "abcdefgh") = str "abcdefgh" from by decide]
  exact chunkLoop_abc_none _ []

/-- C6 (amended): the cursor loop terminates — stopping exactly when the
advanced cursor `end - overlap` lands within the final `overlap` characters
— whenever chunkSize ≥ 1, overlap ≥ 0 and 2·overlap ≤ chunkSize, because
each accepted cut point then advances the cursor by at least one character;
with overlap ≥ chunkSize the cursor can fail to advance and the loop can run
forever. -/
theorem c6_terminates (text : List Char) (cs ov : Int)
    (hcs : 1 ≤ cs) (hov : 0 ≤ ov) (hov2 : 2 * ov ≤ cs) :
    ∃ chunks, splitIntoChunks text cs ov = some chunks := by
  unfold splitIntoChunks
  by_cases hshort : ((cleanup text).length : Int) ≤ cs
  · rw [if_pos hshort]
    exact ⟨_, rfl⟩
  · rw [if_neg hshort]
    exact chunkLoop_some (cleanup text) cs ov hcs hov hov2 _ 0 []
      (by omega) (by omega) (by push_cast; omega)

/-- C6 (witness): with chunk size 4 and overlap 1 (2·1 ≤ 4) the loop on
`"abcdefgh"` terminates. -/
theorem c6_witness :
    2 * 1 ≤ (4 : Int) ∧ (splitIntoChunks (str "abcdefgh") 4 1).isSome = true := by
  refine ⟨by omega, ?_⟩
  obtain ⟨c, hc⟩ := c6_terminates (str "abcdefgh") 4 1 (by omega) (by omega) (by omega)
  rw [hc]
  rfl

/-! ### Claim C9 -/

/-- C9 (confirmed): for every input text whose cleaned form is longer than
the chunk size (chunk size at least 1), every chunk of a terminating run of
`splitIntoChunks` is at most `chunkSize + 1` characters long: a sentence snap
advances one character past the terminator, while paragraph snaps and raw
window cuts never exceed the window. -/
theorem c9_chunk_size_bound (text : List Char) (cs ov : Int)
    (chunks : List (List Char)) (hcs : 1 ≤ cs)
    (hlong : cs < ((cleanup text).length : Int))
    (heq : splitIntoChunks text cs ov = some chunks) :
    ∀ c ∈ chunks, (c.length : Int) ≤ cs + 1 := by
  unfold splitIntoChunks at heq
  rw [if_neg (not_le.mpr hlong)] at heq
  by_cases hov : ov ≤ cs
  · exact chunkLoop_len_inv (cleanup text) cs ov hcs hlong hov _ 0 [] chunks
      (by omega) (by simp) heq
  · rw [chunkLoop_none_big_ov (cleanup text) cs ov hcs hlong (by omega) _ 0 []
      (by omega)] at heq
    cases heq

/-- C9 (witness): on `"abcdefgh"` with chunk size 4 and overlap 1 the first
chunk `"abcd"` has length at most 5. -/
theorem c9_witness :
    (1 : Int) ≤ 4 ∧ 4 < ((cleanup (str "abcdefgh")).length : Int) ∧
      ((str "abcd").length : Int) ≤ 4 + 1 :=
  ⟨by decide, by decide,
   c9_chunk_size_bound (str "abcdefgh") 4 1 [str "abcd", str "defg", str "gh"]
     (by decide) (by decide) (by decide) (str "abcd") (by decide)⟩

/-! ### Claim C3 -/

/-- A batch response that is a permutation of the correctly-indexed items is
restored to index order by the client's sort. -/
theorem sortByIndex_restore (embedOf : List Char → List Int)
    (b : List (List Char)) (items : List EmbItem)
    (hperm : items.Perm ((b.map embedOf).enum.map (fun p => EmbItem.mk p.1 p.2))) :
    sortByIndex items = (b.map embedOf).enum.map (fun p => EmbItem.mk p.1 p.2) := by
  have hcanon : List.Pairwise (fun a b : EmbItem => a.index < b.index)
      ((b.map embedOf).enum.map (fun p => EmbItem.mk p.1 p.2)) := by
    rw [List.pairwise_map]
    have hr := List.pairwise_lt_range (b.map embedOf).length
    rw [← List.enum_map_fst (b.map embedOf)] at hr
    exact (List.pairwise_map).mp hr
  exact insertionSort_key_eq EmbItem.index _ items hcanon hperm

/-- C3 (confirmed): for every list of input texts and every per-batch
permutation the backend applies to each batch response's items,
`createEmbeddings` returns the embedding vectors in input order across any
number of 100-item batches: each response is sorted by its per-item `index`
marker before its embeddings are appended. -/
theorem c3_order_preserved (embedOf : List Char → List Int)
    (backend : List (List Char) → Except EmbError (List EmbItem))
    (hb : ∀ b : List (List Char), ∃ items, backend b = .ok items ∧
      items.Perm ((b.map embedOf).enum.map (fun p => EmbItem.mk p.1 p.2)))
    (texts : List (List Char)) :
    createEmbeddings backend texts = .ok (texts.map embedOf) := by
  have main : ∀ (n : Nat) (ts : List (List Char)), ts.length ≤ n →
      createEmbeddings backend ts = .ok (ts.map embedOf) := by
    intro n
    induction n with
    | zero =>
        intro ts hlen
        have h0 : ts = [] := List.eq_nil_of_length_eq_zero (by omega)
        subst h0
        rw [createEmbeddings]
        rfl
    | succ k ih =>
        intro ts hlen
        rw [createEmbeddings]
        by_cases h : ts = []
        · rw [dif_pos h]
          subst h
          rfl
        · rw [dif_neg h]
          obtain ⟨items, hbe, hperm⟩ := hb (ts.take 100)
          have hlen1 : 1 ≤ ts.length := List.length_pos.mpr h
          have hrec : createEmbeddings backend (ts.drop 100) =
              .ok ((ts.drop 100).map embedOf) := by
            apply ih
            rw [List.length_drop]
            omega
          rw [hbe, hrec]
          show Except.ok ((sortByIndex items).map (·.embedding) ++
            (ts.drop 100).map embedOf) = Except.ok (ts.map embedOf)
          rw [sortByIndex_restore embedOf (ts.take 100) items hperm]
          rw [List.map_map]
          have hcomp : ((fun d : EmbItem => d.embedding) ∘
              (fun p : Nat × List Int => EmbItem.mk p.1 p.2)) = Prod.snd := rfl
          rw [hcomp, List.enum_map_snd, ← List.map_append, List.take_append_drop]
  exact main texts.length texts le_rfl

/-- C3 (witness): the reversing backend `backend0` satisfies the per-batch
permutation hypothesis, and the client returns the three vectors in input
order. -/
theorem c3_witness :
    createEmbeddings backend0 [str "a", str "bb", str "ccc"] =
      .ok [[1], [2], [3]] := by
  have h := c3_order_preserved embedOf0 backend0
    (fun b => ⟨_, rfl, List.reverse_perm _⟩) [str "a", str "bb", str "ccc"]
  rw [h]
  rfl

/-! ### Claim C4 -/

/-- C4 (confirmed): for every set of chunks with strictly increasing
`chunkIndex` and every order in which the store's filtered scroll returns
them, `getDocumentChunks` re-sorts them ascending by `chunkIndex`, and the
document text `executeGetInstruction` assembles is the blank-line join of the
contents in that ascending order. -/
theorem c4_sorted_join (canon : List SearchResult) (pts : List PointPayload)
    (hs : List.Pairwise (fun a b : SearchResult => a.chunkIndex < b.chunkIndex) canon)
    (hp : (pts.map toSearchResult).Perm canon) :
    getDocumentChunksM pts = canon ∧
      fullContentOf pts = List.intercalate (str "\n\n") (canon.map (·.content)) := by
  have h1 : getDocumentChunksM pts = canon :=
    insertionSort_key_eq SearchResult.chunkIndex canon (pts.map toSearchResult) hs hp
  refine ⟨h1, ?_⟩
  unfold fullContentOf
  rw [h1]

/-- C4 (witness): three chunks returned by the store in order [2,0,1] are
reassembled as [0,1,2] and joined with blank lines. -/
theorem c4_witness :
    getDocumentChunksM [payload0 2 (str "C"), payload0 0 (str "A"), payload0 1 (str "B")] =
        [sr0 0 (str "A"), sr0 1 (str "B"), sr0 2 (str "C")] ∧
      fullContentOf [payload0 2 (str "C"), payload0 0 (str "A"), payload0 1 (str "B")] =
        str "A\n\nB\n\nC" := by
  have h := c4_sorted_join
    [sr0 0 (str "A"), sr0 1 (str "B"), sr0 2 (str "C")]
    [payload0 2 (str "C"), payload0 0 (str "A"), payload0 1 (str "B")]
    (by decide) (by decide)
  exact ⟨h.1, h.2.trans (by decide)⟩

/-! ### Claim C5 -/

/-- C5 (confirmed): for every successfully chunked document, the
`chunkIndex` values of the list `parseAndChunkDocument` returns are, in
position order, exactly the dense run `0..N-1` (`List.range N`), and every
chunk reports `totalChunks = N`, the number of chunks produced. -/
theorem c5_dense_indices (filePath basePath content : List Char) (cs ov : Int)
    (chunks : List DocumentChunk)
    (heq : parseAndChunkDocument filePath basePath content cs ov = some chunks) :
    chunks.map (·.metadata.chunkIndex) = List.range chunks.length ∧
      ∀ c ∈ chunks, c.metadata.totalChunks = chunks.length := by
  unfold parseAndChunkDocument at heq
  cases hsp : splitIntoChunks content cs ov with
  | none => rw [hsp] at heq; cases heq
  | some textChunks =>
      rw [hsp] at heq
      have hchunks : chunks = textChunks.enum.map (fun p =>
          ({ id := generateDocumentId filePath ++ str "-chunk-" ++ str (toString p.1)
             content := p.2
             metadata :=
               { documentId := generateDocumentId filePath
                 documentName := basename filePath
                 documentPath := filePath
                 chunkIndex := p.1
                 totalChunks := textChunks.length
                 category := extractCategory filePath basePath
                 title := some (extractTitle content (basename filePath)) } } :
            DocumentChunk)) := by
        cases heq
        rfl
      subst hchunks
      constructor
      · rw [List.map_map]
        have hcomp : ((fun c : DocumentChunk => c.metadata.chunkIndex) ∘
            (fun p : Nat × List Char =>
              ({ id := generateDocumentId filePath ++ str "-chunk-" ++ str (toString p.1)
                 content := p.2
                 metadata :=
                   { documentId := generateDocumentId filePath
                     documentName := basename filePath
                     documentPath := filePath
                     chunkIndex := p.1
                     totalChunks := textChunks.length
                     category := extractCategory filePath basePath
                     title := some (extractTitle content (basename filePath)) } } :
                DocumentChunk))) = Prod.fst := rfl
        rw [hcomp, List.enum_map_fst, List.length_map, List.enum_length]
      · intro c hc
        rw [List.mem_map] at hc
        obtain ⟨p, _, hcf⟩ := hc
        subst hcf
        show textChunks.length = _
        rw [List.length_map, List.enum_length]

/-- C5 (witness): the six-character document `"abcdef"` chunked with size 3
and overlap 1 yields three chunks with chunkIndex run `[0, 1, 2]`; the chunk
at position 1 reports `totalChunks = 3`. -/
theorem c5_witness :
    parseAndChunkDocument fp0 bp0 (str "abcdef") 3 1 = some chunksC5 ∧
      chunksC5.map (·.metadata.chunkIndex) = List.range chunksC5.length ∧
      (chunksC5.getD 1 ⟨[], [], ⟨[], [], [], 0, 0, none, none⟩⟩).metadata.totalChunks =
        chunksC5.length := by
  have h := c5_dense_indices fp0 bp0 (str "abcdef") 3 1 chunksC5 (by decide)
  exact ⟨by decide, h.1,
    h.2 (chunksC5.getD 1 ⟨[], [], ⟨[], [], [], 0, 0, none, none⟩⟩) (by decide)⟩

/-! ### Claim C7 -/

/-- Looking a key up after appending it to an association list in which it
was absent finds the appended value. -/
theorem lookup_append_absent :
    ∀ (l : List (List Char × CollectionParams)) (n : List Char) (p : CollectionParams),
      l.any (fun c => decide (c.1 = n)) = false →
      List.lookup n (l ++ [(n, p)]) = some p := by
  intro l
  induction l with
  | nil =>
      intro n p _
      simp [List.lookup]
  | cons kv rest ih =>
      intro n p h
      rw [List.any_cons, Bool.or_eq_false_iff] at h
      have hk : (n == kv.1) = false := by
        rcases h with ⟨h1, _⟩
        rw [decide_eq_false_iff_not] at h1
        exact beq_eq_false_iff_ne.mpr (fun hnk => h1 hnk.symm)
      rw [List.cons_append, List.lookup, hk]
      exact ih n p h.2

/-- C7 (confirmed): `createCollection` is idempotent — when the collection is
present it issues no store mutation and returns the state unchanged, and a
second call after any call is a no-op — and when the collection is absent it
creates it with the configured dimension, the cosine metric, and the two
keyword payload indexes on `documentId` and `category`. -/
theorem c7_create_idempotent (cfg : KnowledgeConfig) (s : QdrantState) :
    (collectionExists cfg s = true → createCollection cfg s = (s, [])) ∧
      (createCollection cfg (createCollection cfg s).1).1 = (createCollection cfg s).1 ∧
      (collectionExists cfg s = false →
        List.lookup cfg.collectionName (createCollection cfg s).1.collections =
          some { size := cfg.embeddingDimension, distance := .cosine,
                 defaultSegmentNumber := 2, replicationFactor := 1 } ∧
        ({ collection := cfg.collectionName, fieldName := str "documentId"
           fieldSchema := str "keyword" } : PayloadIndex) ∈
            (createCollection cfg s).1.payloadIndexes ∧
        ({ collection := cfg.collectionName, fieldName := str "category"
           fieldSchema := str "keyword" } : PayloadIndex) ∈
            (createCollection cfg s).1.payloadIndexes) := by
  refine ⟨?_, ?_, ?_⟩
  · intro h
    unfold createCollection
    rw [if_pos h]
  · by_cases h : collectionExists cfg s
    · unfold createCollection
      rw [if_pos h]
      rw [if_pos h]
    · have h1 : (createCollection cfg s).1.collections =
          s.collections ++ [(cfg.collectionName,
            { size := cfg.embeddingDimension, distance := .cosine,
              defaultSegmentNumber := 2, replicationFactor := 1 })] := by
        unfold createCollection
        rw [if_neg h]
      have hex : collectionExists cfg (createCollection cfg s).1 = true := by
        unfold collectionExists
        rw [h1, List.any_append]
        simp
      generalize createCollection cfg s = t at hex ⊢
      unfold createCollection
      rw [if_pos hex]
  · intro h
    have h1 : (createCollection cfg s).1.collections =
        s.collections ++ [(cfg.collectionName,
          { size := cfg.embeddingDimension, distance := .cosine,
            defaultSegmentNumber := 2, replicationFactor := 1 })] := by
      unfold createCollection
      rw [if_neg (by rw [h]; exact Bool.false_ne_true)]
    have h2 : (createCollection cfg s).1.payloadIndexes =
        s.payloadIndexes ++
          [{ collection := cfg.collectionName, fieldName := str "documentId"
             fieldSchema := str "keyword" },
           { collection := cfg.collectionName, fieldName := str "category"
             fieldSchema := str "keyword" }] := by
      unfold createCollection
      rw [if_neg (by rw [h]; exact Bool.false_ne_true)]
    refine ⟨?_, ?_, ?_⟩
    · rw [h1]
      exact lookup_append_absent s.collections cfg.collectionName _ (by
        unfold collectionExists at h
        exact h)
    · rw [h2]
      exact List.mem_append_right _ (by simp)
    · rw [h2]
      exact List.mem_append_right _ (by simp)

/-- C7 (witness): on a state already holding the collection the call returns
the state unchanged with no mutations; on an empty store it registers the
collection with dimension 1536 and cosine distance. -/
theorem c7_witness :
    createCollection cfg0 statePresent0 = (statePresent0, []) ∧
      List.lookup (str "knowledge") (createCollection cfg0 stateEmpty0).1.collections =
        some params0 := by
  refine ⟨(c7_create_idempotent cfg0 statePresent0).1 (by decide), ?_⟩
  have h := ((c7_create_idempotent cfg0 stateEmpty0).2.2 (by decide)).1
  exact h

/-! ### Claim C10 -/

/-- C10 (confirmed): when the collection does not exist, `listDocuments`
returns the empty list without raising, and consequently `listCategories`
returns the empty list: registry reads on an absent collection are a valid
empty outcome. -/
theorem c10_absent_empty (cfg : KnowledgeConfig) (s : QdrantState)
    (h : collectionExists cfg s = false) :
    listDocuments cfg s = [] ∧ listCategories cfg s = [] := by
  have h1 : listDocuments cfg s = [] := by
    unfold listDocuments
    rw [h]
    rfl
  refine ⟨h1, ?_⟩
  unfold listCategories
  rw [h1]
  rfl

/-- C10 (witness): on the empty store both registry reads are empty. -/
theorem c10_witness :
    listDocuments cfg0 stateEmpty0 = [] ∧ listCategories cfg0 stateEmpty0 = [] :=
  c10_absent_empty cfg0 stateEmpty0 (by decide)

/-! ### Claim C1 -/

/-- C1 (counterexample): the claim "ingesting a folder with no ingestible
documents returns Stats{documents:0, chunks:0} rather than failing" is false:
the run takes the `documentPaths.length === 0` branch and calls
`process.exit(1)` (modelled by `exitNoDocuments`), which is not a completed
run with zero-valued statistics. -/
theorem c1_counterexample :
    ingestMain cfg0 stateEmpty0 false bp0 [] = some (.exitNoDocuments, 0) ∧
      IngestOutcome.exitNoDocuments ≠ IngestOutcome.completed 0 0 [] :=
  ⟨by decide, by decide⟩

/-- C1 (amended): running the ingestion CLI on a folder in which no
ingestible documents are found prints an error and exits with status 1
(before the collection is touched), returning no statistics; the embedding
endpoint is never called during such a run. -/
theorem c1_empty_folder_exits (cfg : KnowledgeConfig) (s : QdrantState)
    (reset : Bool) (basePath : List Char) :
    ingestMain cfg s reset basePath [] = some (.exitNoDocuments, 0) := by
  unfold ingestMain
  rfl

/-! ### Claim C8 -/

theorem except_bind_ok {ε α β : Type} (a : α) (f : α → Except ε β) :
    (Except.ok a : Except ε α) >>= f = f a := rfl

mutual

/-- A readable directory whose reachable non-hidden directories are all
readable scans without raising. -/
theorem scanDir_ok (p : List Char) (d : FSEntry) (h : scanOk d = true) :
    ∃ l, scanDir p d = .ok l :=
  match d with
  | .file _ => absurd h (by rw [scanOk]; exact Bool.false_ne_true)
  | .dir n r ch => by
      rw [scanOk, Bool.and_eq_true] at h
      obtain ⟨hr, hch⟩ := h
      subst hr
      show ∃ l, scanChildren p ch = .ok l
      exact scanChildren_ok p ch hch

/-- The children loop of `scanDir` succeeds under `scanChildrenOk`. -/
theorem scanChildren_ok (p : List Char) (ch : List FSEntry)
    (h : scanChildrenOk ch = true) :
    ∃ l, scanChildren p ch = .ok l :=
  match ch with
  | [] => ⟨[], rfl⟩
  | .file n :: rest => by
      rw [scanChildrenOk] at h
      obtain ⟨t, ht⟩ := scanChildren_ok p rest h
      by_cases hc : supportedExtensions.contains ((extname n).map Char.toLower) = true
      · refine ⟨(p ++ '/' :: n) :: t, ?_⟩
        rw [scanChildren, ht]
        simp only [except_bind_ok]
        rw [if_pos hc]
      · refine ⟨t, ?_⟩
        rw [scanChildren, ht]
        simp only [except_bind_ok]
        rw [if_neg hc]
  | .dir n r sub :: rest => by
      rw [scanChildrenOk, Bool.and_eq_true] at h
      obtain ⟨hh, hrest⟩ := h
      obtain ⟨t, ht⟩ := scanChildren_ok p rest hrest
      by_cases hid : hiddenName n = true
      · exact ⟨t, by
          rw [scanChildren, if_pos hid]
          exact ht⟩
      · rw [if_neg hid] at hh
        obtain ⟨s, hs⟩ := scanDir_ok (p ++ '/' :: n) (.dir n r sub) hh
        refine ⟨s ++ t, ?_⟩
        rw [scanChildren, if_neg hid, hs]
        simp only [except_bind_ok]
        rw [ht]
        simp only [except_bind_ok]

end

/-- C8 (amended): `findDocuments` on a nonexistent root returns the empty
list rather than erroring, and on a root directory all of whose reachable
non-hidden directories are readable it returns a list of paths; but an
existing unreadable root (or unreadable non-hidden subdirectory) makes
`readdirSync` throw and the exception propagate, rather than yielding the
empty result. -/
theorem c8_locator_behaviour (dirPath : List Char) (t : FSEntry) :
    findDocuments dirPath none = .ok [] ∧
      (scanOk t = true → ∃ l, findDocuments dirPath (some t) = .ok l) :=
  ⟨rfl, fun h => scanDir_ok dirPath t h⟩

/-- C8 (counterexample): the claim that `findDocuments` never raises and
yields the empty result on an unreadable root is false: on an existing but
unreadable root `fs.existsSync` is true, `fs.readdirSync` throwsEACCES, and
the error propagates out of `findDocuments`. -/
theorem c8_counterexample :
    findDocuments (str "/docs") (some fsUnreadable0) = .error .eacces := by decide

/-- C8 (witness): a readable tree (with a hidden unreadable directory, which
is skipped) satisfies the readability condition and scans successfully. -/
theorem c8_witness :
    scanOk fsTree0 = true ∧
      (findDocuments (str "/d") (some fsTree0)).toOption.isSome = true := by
  refine ⟨by decide, ?_⟩
  obtain ⟨l, hl⟩ := (c8_locator_behaviour (str "/d") fsTree0).2 (by decide)
  rw [hl]
  rfl

end KB
